import Mathlib

/-!
# Verification of the `coffi` configuration-file resolver

This file gives a shallow embedding of the core of the `coffi` repository
(a configuration-file loader for the node ecosystem) and proves properties
of it.  The embedded code is translated from the TypeScript sources:

* `src/index.ts` — `parseConfigFile`, `findPackageJson`, `loadConfigInternal`
  (the variant with `packageJsonProperty` and `preferredPath` support; the
  richest single-file variant of the resolver additionally resolves the
  preferred path against `cwd` and retries the preferred path with each
  candidate extension when it carries no extension — that variant is the one
  embedded here as `loadConfigInternal`);
* `src/utils.ts` — `cleanJson` (comment stripping via the external
  `strip-json-comments` package, followed by a trailing-comma regex
  replacement and a trim).

The platform services the code invokes (`existsSync`, `readFileSync`,
`readdirSync`, dynamic `import`, `JSON.parse`, `path.resolve`) are modelled
as a record of functions (`Platform`); each may fail, modelling a thrown
exception, via `Except JSErr`.

JavaScript values are modelled by the inductive `JSValue`.  Two design
points of the embedding:

* A zero-argument function value is modelled by the outcome of calling it
  (`vfunc (call : Except JSErr JSValue)`), and a promise by the outcome of
  awaiting it (`vpromise (settle : Except JSErr JSValue)`), where the
  `.error` case models a thrown exception / a rejection.
* The TypeScript code uses the single JavaScript value `null` both as the
  "unusable / not found" marker and as a possible configuration value
  (`config !== null` tests); the embedding therefore uses `JSValue.vnull`
  for both, exactly as the source does, rather than an `Option` wrapper.

Directories are lists of path components measured from the filesystem root
(`[]` is the root), so `dirname` is `List.dropLast` and the root is its own
parent — matching POSIX `dirname("/") = "/"`, the fixed point the walk's
`parentDir === currentDir` test relies on.
-/

/-- A thrown JavaScript exception / promise rejection reason, identified by
its message. -/
structure JSErr where
  msg : String
deriving DecidableEq, Repr

/-- JavaScript values, as far as the embedded code inspects them: `null` and
`undefined`, primitives, objects (association lists of own properties),
arrays, zero-argument functions (modelled by the outcome of the single call
the code makes) and promises (modelled by the outcome of awaiting them). -/
inductive JSValue where
  | vnull
  | vundefined
  | vbool (b : Bool)
  | vnum (n : Int)
  | vstr (s : String)
  | vobj (fields : List (String × JSValue))
  | varr (elems : List JSValue)
  | vfunc (call : Except JSErr JSValue)
  | vpromise (settle : Except JSErr JSValue)

/-- JavaScript truthiness: `null`, `undefined`, `false`, `0` and `""` are
falsy; every object, array, function and promise is truthy. -/
def jsTruthy : JSValue → Bool
  | .vnull => false
  | .vundefined => false
  | .vbool b => b
  | .vnum n => n != 0
  | .vstr s => s != ""
  | _ => true

/-- Strict-equality test against the JavaScript literal `null`
(`config === null`); `undefined` is not `null`. -/
def isNull : JSValue → Bool
  | .vnull => true
  | _ => false

/-- The `typeof v === "object"` test: true for objects, arrays, `null` and
promises, false for primitives and functions (whose `typeof` is
`"function"`). -/
def jsTypeofObject : JSValue → Bool
  | .vobj _ => true
  | .varr _ => true
  | .vnull => true
  | .vpromise _ => true
  | _ => false

/-- The JavaScript `key in obj` test, restricted to own properties: own keys
of objects, and indices plus `length` for arrays.  (The real operator also
sees inherited prototype members; only own properties matter for objects
produced by `JSON.parse`, which is how the code uses the test.) -/
def jsHasProp : JSValue → String → Bool
  | .vobj fields, k => fields.any (fun p => p.1 == k)
  | .varr elems, k =>
    k == "length" ||
      (match k.toNat? with
       | some n => n < elems.length
       | none => false)
  | _, _ => false

/-- Property read `obj[key]` on own properties, `undefined` when absent. -/
def jsGetProp : JSValue → String → JSValue
  | .vobj fields, k =>
    match fields.find? (fun p => p.1 == k) with
    | some p => p.2
    | none => .vundefined
  | .varr elems, k =>
    if k == "length" then .vnum elems.length
    else match k.toNat? with
      | some n => (elems.drop n).headD .vundefined
      | none => .vundefined
  | _, _ => .vundefined

/-- The export surface of a dynamically imported module: its default export
(`vundefined` when the module has none, so that `module.default` is falsy)
and the full namespace object. -/
structure JsModule where
  defaultExport : JSValue
  namespaceObject : JSValue

/-- An absolute file path: the directory (components from the root) and the
file name.  All paths the resolver builds are `join(dir, filename)` of an
absolute directory, so the embedding keeps the two parts separate. -/
structure FsPath where
  dir : List String
  base : String
deriving DecidableEq, Repr

/-- The narrow platform interfaces the resolver invokes; an `.error` result
models a thrown exception.  `resolvePath` models `path.resolve(cwd, p)`. -/
structure Platform where
  existsSyncFn : FsPath → Except JSErr Bool
  readFileFn : FsPath → Except JSErr String
  jsonParseFn : String → Except JSErr JSValue
  importModuleFn : FsPath → Except JSErr JsModule
  readdirFn : List String → Except JSErr (List String)
  resolvePathFn : List String → String → FsPath

/-- Embedding of the `_exists` helper: `existsSync` with every thrown
exception converted to `false`. -/
def pExists (P : Platform) (fp : FsPath) : Bool :=
  match P.existsSyncFn fp with
  | .ok b => b
  | .error _ => false

/-- Embedding of `path.dirname` on component lists: drop the last component;
the root (`[]`) is its own parent. -/
def dirnameDir (d : List String) : List String := d.dropLast

/-- The directory `n` levels above `d` (iterated `dirname`). -/
def upDir : Nat → List String → List String
  | 0, d => d
  | n + 1, d => upDir n (dirnameDir d)

/-- Embedding of node's `path.extname` applied to a file name: the suffix
starting at the last dot, except that a dot in first position (a dotfile)
yields the empty string, as does the absence of a dot. -/
def extnameOf (base : String) : String :=
  let cs := base.data
  match (List.range cs.length).filter (fun i => cs.getD i ' ' = '.') with
  | [] => ""
  | is =>
    let i := is.getLast!
    if i = 0 then "" else ⟨cs.drop i⟩

/-- Rendering of an absolute path as the string the JavaScript code would
hold (`/a/b/name.ext`). -/
def pathToString (fp : FsPath) : String :=
  "/" ++ String.intercalate "/" (fp.dir ++ [fp.base])

/-- Embedding of `filepath.slice(filepath.lastIndexOf("."))`, the extension
extraction used by `parseConfigFile` in `src/index.ts`: the suffix of the
whole path string from its last dot; when the path has no dot at all,
`lastIndexOf` is `-1` and `slice(-1)` yields the final character. -/
def extSlice (s : String) : String :=
  let cs := s.data
  match (List.range cs.length).filter (fun i => cs.getD i ' ' = '.') with
  | [] => ⟨cs.drop (cs.length - 1)⟩
  | is => ⟨cs.drop is.getLast!⟩

/-- ASCII lowercasing of a character, as `toLowerCase` acts on the ASCII
extension strings the code feeds it. -/
def charLower (c : Char) : Char :=
  if 65 ≤ c.toNat ∧ c.toNat ≤ 90 then Char.ofNat (c.toNat + 32) else c

/-- Embedding of `.toLowerCase()` on the (ASCII) extension strings. -/
def lowerString (s : String) : String :=
  ⟨s.data.map charLower⟩

/-- The `module.default || module` selection. -/
def moduleConfig (m : JsModule) : JSValue :=
  if jsTruthy m.defaultExport then m.defaultExport else m.namespaceObject

/-- The await-if-promise step: a promise is awaited, its resolved value is
the result and a rejection is converted to `null`; any other value passes
through. -/
def awaitIfPromise : JSValue → JSValue
  | .vpromise settle =>
    match settle with
    | .ok v => v
    | .error _ => .vnull
  | v => v

/-- The call-if-callable step followed by the await-if-promise step, each
with its failure converted to `null`: the deterministic unwrap sequence the
executable-module branch of the parser applies to the selected export. -/
def jsUnwrap : JSValue → JSValue
  | .vfunc call =>
    match call with
    | .ok c => awaitIfPromise c
    | .error _ => .vnull
  | v => awaitIfPromise v

/-- Embedding of `parseConfigFile` (the defensive variant used by the
embedded resolver).  Every failure — missing file, read or `JSON.parse`
exception, `import` exception, exception thrown by a callable export, or
rejection of a produced promise — is caught and converted to `null`
(`.vnull`), so the function is total.  The `isAbsolute` normalisation of the
source collapses in the embedding because every modelled path is already
absolute. -/
def parseConfigFile (P : Platform) (fp : FsPath) : JSValue :=
  if !pExists P fp then .vnull
  else
    let ext := lowerString (extnameOf fp.base)
    if ext = ".json" then
      match P.readFileFn fp with
      | .error _ => .vnull
      | .ok text =>
        match P.jsonParseFn text with
        | .error _ => .vnull
        | .ok v => v
    else
      match P.importModuleFn fp with
      | .error _ => .vnull
      | .ok m =>
        match moduleConfig m with
        | .vfunc call =>
          match call with
          | .error _ => .vnull
          | .ok c => awaitIfPromise c
        | c => awaitIfPromise c

/-- Embedding of `parseConfigFile` from `src/index.ts`, whose whole body sits
in a single `try { ... } catch { return null }` and whose promise branch is
`return config` rather than `return await config`.  Because the async
function's result promise only adopts the returned promise after the `try`
block has been exited, a rejection of that promise is not seen by the
`catch`: it rejects the promise `parseConfigFile` returned to its caller.
The embedding makes that path explicit: the result is
`Except JSErr JSValue`, `.ok .vnull` is the caught-and-converted "unusable"
outcome, and `.error` is a rejection escaping to the caller — reachable
exactly on the `return config` promise branch. -/
def parseConfigFileIndex (P : Platform) (fp : FsPath) : Except JSErr JSValue :=
  if !pExists P fp then .ok .vnull
  else
    let ext := lowerString (extSlice (pathToString fp))
    if ext = ".json" then
      match P.readFileFn fp with
      | .error _ => .ok .vnull
      | .ok text =>
        match P.jsonParseFn text with
        | .error _ => .ok .vnull
        | .ok v => .ok v
    else
      match P.importModuleFn fp with
      | .error _ => .ok .vnull
      | .ok m =>
        match moduleConfig m with
        | .vfunc call =>
          match call with
          | .error _ => .ok .vnull
          | .ok c =>
            match c with
            | .vpromise settle => settle
            | v => .ok v
        | .vpromise settle => settle
        | c => .ok c

/-- The result shape of `loadConfig`: the configuration value (`vnull` when
no configuration was found, mirroring `config: T | null`) and the path of
the winning file (`none` mirroring `filepath: null`). -/
structure LoadConfigResult where
  config : JSValue
  filepath : Option FsPath

/-- A warn-level diagnostic event sent to the logger collaborator.  Debug
events never affect control flow or results and are not modelled. -/
inductive LogEvent where
  | warnPreferred (preferredPath : String)
deriving DecidableEq, Repr

/-- The result of a `loadConfigInternal` run together with the warn events
it emitted. -/
structure LoadOutcome where
  result : LoadConfigResult
  warns : List LogEvent

/-- The `{config: null, filepath: null}` outcome. -/
def notFoundResult : LoadConfigResult := ⟨.vnull, none⟩

/-- JavaScript truthiness of an optional-string option
(`if (packageJsonProperty)`, `if (preferredPath)`): absent and `""` are
falsy. -/
def strTruthy : Option String → Bool
  | none => false
  | some s => s != ""

/-- Loop body of `findPackageJson`, with the remaining iteration budget
`maxDepth - currentDepth` as fuel: test `join(currentDir, "package.json")`
for existence, stop at the root fixed point, otherwise climb. -/
def findPackageJsonGo (P : Platform) : List String → Nat → Option FsPath
  | _, 0 => none
  | dir, fuel + 1 =>
    if pExists P ⟨dir, "package.json"⟩ then some ⟨dir, "package.json"⟩
    else if dirnameDir dir = dir then none
    else findPackageJsonGo P (dirnameDir dir) fuel

/-- Embedding of `findPackageJson`: the nearest `package.json` on the upward
walk from `cwd`, bounded by `maxDepth`. -/
def findPackageJson (P : Platform) (cwd : List String) (maxDepth : Nat) : Option FsPath :=
  findPackageJsonGo P cwd maxDepth

/-- The extension loop of the directory-walk tier at one directory level:
for each extension in request order, if `name + ext` is among the listed
files, parse it and return the first result that is not `null`. -/
def tryExtensions (P : Platform) (name : String) (dir : List String)
    (files : List String) : List String → Option (JSValue × FsPath)
  | [] => none
  | ext :: rest =>
    let filename := name ++ ext
    if files.contains filename then
      let fp : FsPath := ⟨dir, filename⟩
      let config := parseConfigFile P fp
      if isNull config then tryExtensions P name dir files rest
      else some (config, fp)
    else tryExtensions P name dir files rest

/-- One level of the directory walk: `readdirSync` the directory (a listing
exception is swallowed by the surrounding `try` and counts as no match at
this level), then run the extension loop. -/
def levelHit (P : Platform) (name : String) (exts : List String)
    (dir : List String) : Option (JSValue × FsPath) :=
  match P.readdirFn dir with
  | .error _ => none
  | .ok files => tryExtensions P name dir files exts

/-- The `while (currentDepth < maxDepth)` walk of the directory-walk tier,
with `maxDepth - currentDepth` as fuel: try the current level, then stop at
the root fixed point (`parentDir === currentDir`) or climb to the parent. -/
def walkLoopGo (P : Platform) (name : String) (exts : List String) :
    List String → Nat → LoadConfigResult
  | _, 0 => notFoundResult
  | dir, fuel + 1 =>
    match levelHit P name exts dir with
    | some (config, fp) => ⟨config, some fp⟩
    | none =>
      if dirnameDir dir = dir then notFoundResult
      else walkLoopGo P name exts (dirnameDir dir) fuel

/-- The directory-walk tier, starting at `cwd` with depth bound `maxDepth`. -/
def walkTier (P : Platform) (name : String) (exts : List String)
    (cwd : List String) (maxDepth : Nat) : LoadConfigResult :=
  walkLoopGo P name exts cwd maxDepth

/-- The retry loop of the preferred-path tier: when the resolved preferred
path has no extension and did not parse, retry with each candidate extension
appended, in priority order. -/
def tryPreferredExts (P : Platform) (rp : FsPath) : List String → Option (JSValue × FsPath)
  | [] => none
  | ext :: rest =>
    let pe : FsPath := ⟨rp.dir, rp.base ++ ext⟩
    let config := parseConfigFile P pe
    if isNull config then tryPreferredExts P rp rest
    else some (config, pe)

/-- The preferred-path tier: resolve the preferred path against `cwd`, try
the exact path, and if that fails and the path has no extension, retry with
each candidate extension; `none` means the whole tier failed (the engine
then warns and falls through). -/
def preferredTier (P : Platform) (cwd : List String) (exts : List String)
    (p : String) : Option (JSValue × FsPath) :=
  let rp := P.resolvePathFn cwd p
  let config := parseConfigFile P rp
  if !isNull config then some (config, rp)
  else if extnameOf rp.base = "" then tryPreferredExts P rp exts
  else none

/-- The manifest tier: when `packageJsonProperty` is truthy, find the
nearest `package.json`, parse it, and when the parsed value is truthy, of
object type, and has the property as a key (`prop in packageJson`, so even a
falsy value counts), produce that property's value with the manifest path.
`none` means the tier fell through. -/
def manifestTier (P : Platform) (cwd : List String) (maxDepth : Nat) :
    Option String → Option LoadConfigResult
  | none => none
  | some s =>
    if s = "" then none
    else
      match findPackageJson P cwd maxDepth with
      | none => none
      | some pjPath =>
        let packageJson := parseConfigFile P pjPath
        if jsTruthy packageJson && jsTypeofObject packageJson && jsHasProp packageJson s then
          some ⟨jsGetProp packageJson s, some pjPath⟩
        else none

/-- Embedding of `loadConfigInternal`: the three-tier resolution in strict
order — manifest property, then preferred path (with a warn event on its
total failure), then the bounded upward directory walk — short-circuiting on
the first success and returning `{config: null, filepath: null}` when every
tier fails. -/
def loadConfigInternal (P : Platform) (name : String) (extensions : List String)
    (cwd : List String) (maxDepth : Nat) (preferredPath : Option String)
    (packageJsonProperty : Option String) : LoadOutcome :=
  match manifestTier P cwd maxDepth packageJsonProperty with
  | some r => ⟨r, []⟩
  | none =>
    match preferredPath with
    | some p =>
      if p = "" then ⟨walkTier P name extensions cwd maxDepth, []⟩
      else
        match preferredTier P cwd extensions p with
        | some (config, fp) => ⟨⟨config, some fp⟩, []⟩
        | none =>
          ⟨walkTier P name extensions cwd maxDepth, [LogEvent.warnPreferred p]⟩
    | none => ⟨walkTier P name extensions cwd maxDepth, []⟩

/-- A candidate `(dir, name, ext)` of the directory-walk tier is usable when
the directory listing succeeds, lists `name + ext`, and parsing the file
yields a value other than `null`. -/
def usableAtB (P : Platform) (name : String) (dir : List String) (ext : String) : Bool :=
  match P.readdirFn dir with
  | .error _ => false
  | .ok files =>
    files.contains (name ++ ext) && !isNull (parseConfigFile P ⟨dir, name ++ ext⟩)

/-- Whitespace as matched by the regex class and by `trim` (the ASCII part,
which is all the inputs in this development use). -/
def wsChar (c : Char) : Bool :=
  c = ' ' || c = '\t' || c = '\n' || c = '\r'

/-- Scanner modes of the comment stripper: top level, inside a string
literal, inside a `//` comment, inside a `/* */` comment. -/
inductive StripMode where
  | top
  | instr
  | line
  | blok
deriving DecidableEq, Repr

/-- Modelled from the spec: the comment-removal capability provided by the
external `strip-json-comments` package, which is a dependency and not part
of this repository's sources.  Per the spec it removes `//` and `/* */`
comment forms that are not inside string literals and leaves string-literal
content (including escape sequences) untouched; the newline ending a `//`
comment is kept. -/
def stripGo : List Char → StripMode → List Char
  | [], _ => []
  | '"' :: rest, .top => '"' :: stripGo rest .instr
  | '/' :: '/' :: rest, .top => stripGo rest .line
  | '/' :: '*' :: rest, .top => stripGo rest .blok
  | c :: rest, .top => c :: stripGo rest .top
  | '\\' :: c :: rest, .instr => '\\' :: c :: stripGo rest .instr
  | '"' :: rest, .instr => '"' :: stripGo rest .top
  | c :: rest, .instr => c :: stripGo rest .instr
  | '\n' :: rest, .line => '\n' :: stripGo rest .top
  | _ :: rest, .line => stripGo rest .line
  | '*' :: '/' :: rest, .blok => stripGo rest .top
  | _ :: rest, .blok => stripGo rest .blok

/-- Dropping a prefix cannot lengthen a list. -/
theorem dropWhile_length_le (p : Char → Bool) :
    ∀ l : List Char, (l.dropWhile p).length ≤ l.length
  | [] => Nat.le_refl _
  | c :: l => by
    by_cases h : p c
    · simp only [List.dropWhile_cons, h, if_true]
      exact Nat.le_succ_of_le (dropWhile_length_le p l)
    · simp [List.dropWhile_cons, h]

/-- Fuel-indexed body of the trailing-comma removal; the fuel (at least the
length of the list at every call, so never exhausted) only makes the
recursion structural. -/
def rtcFuel : Nat → List Char → List Char
  | 0, l => l
  | _ + 1, [] => []
  | fuel + 1, c :: rest =>
    if c = ',' then
      match rest.dropWhile wsChar with
      | d :: rest2 =>
        if d = '\x7d' || d = '\x5d' then d :: rtcFuel fuel rest2
        else c :: rtcFuel fuel rest
      | [] => c :: rtcFuel fuel rest
    else c :: rtcFuel fuel rest

/-- Embedding of the global regex replacement
`.replace(/,\s*([}\x7d\x5d])/g, "$1")` of `cleanJson`: scanning left to
right, a comma followed by (greedily consumed) whitespace and a closing
brace or bracket is replaced by that closer, and scanning resumes after the
match; at a position with no match, scanning moves one character forward.
The scan is not aware of string literals, exactly like the source regex. -/
def rtcGo (l : List Char) : List Char := rtcFuel l.length l

/-- Left trim: drop leading whitespace. -/
def trimLeftL (l : List Char) : List Char := l.dropWhile wsChar

/-- Right trim: drop trailing whitespace. -/
def trimRightL (l : List Char) : List Char := (l.reverse.dropWhile wsChar).reverse

/-- Embedding of `.trim()`: drop leading and trailing whitespace. -/
def jsTrimL (l : List Char) : List Char := trimRightL (trimLeftL l)

/-- The body of `cleanJson` on character lists: strip comments, remove
trailing commas, trim. -/
def cleanJsonL (l : List Char) : List Char :=
  jsTrimL (rtcGo (stripGo l .top))

/-- Embedding of `cleanJson` from `src/utils.ts`: `stripJsonComments`, then
the trailing-comma regex replacement, then `trim`. -/
def cleanJson (s : String) : String :=
  ⟨cleanJsonL s.data⟩

/-- The contents of the JSON string literals of a text, in order: the scan
enters a literal at `"`, keeps escape pairs as written, and closes at the
next unescaped `"` (an unterminated literal yields its partial content).
Used to state that a transformation leaves string-literal content
unchanged. -/
def strLitsGo : List Char → Option (List Char) → List String
  | [], none => []
  | [], some acc => [⟨acc.reverse⟩]
  | '"' :: rest, none => strLitsGo rest (some [])
  | _ :: rest, none => strLitsGo rest none
  | '\\' :: c :: rest, some acc => strLitsGo rest (some (c :: '\\' :: acc))
  | '"' :: rest, some acc => (⟨acc.reverse⟩ : String) :: strLitsGo rest none
  | c :: rest, some acc => strLitsGo rest (some (c :: acc))

/-- The string-literal contents of a string. -/
def strLits (s : String) : List String := strLitsGo s.data none

/-- Modelled from the spec: a `ResolutionRequest` — the fields of a
resolution call that affect its outcome, which is also the field set the
cache key serializes (the repository sources under `src/` contain no cache
implementation; the Result Cache of spec sections 4.4/4.5 is modelled from
the spec's words here and below). -/
structure ResolutionRequest where
  name : String
  extensions : List String
  cwd : List String
  maxDepth : Nat
  preferredPath : Option String
  packageJsonProperty : Option String
deriving DecidableEq, Repr

/-- Ordered insertion of a string (by `Ord.compare`), used only to
order-normalize the extension list inside the cache key. -/
def insertString (s : String) : List String → List String
  | [] => [s]
  | t :: rest => if compare s t = .gt then t :: insertString s rest else s :: t :: rest

/-- Insertion sort of strings, used only to order-normalize the extension
list inside the cache key. -/
def sortStrings : List String → List String
  | [] => []
  | s :: rest => insertString s (sortStrings rest)

/-- Modelled from the spec: the deterministic cache key — the request with
its extension list order-normalized (sorted) for keying purposes only;
search order is unaffected. -/
def cacheKey (r : ResolutionRequest) : ResolutionRequest :=
  { r with extensions := sortStrings r.extensions }

/-- Modelled from the spec: a cache entry — the cached pair plus the
winning file's modification time captured at store time. -/
structure CacheEntry where
  config : JSValue
  filepath : FsPath
  capturedMtime : Nat

/-- Modelled from the spec: the in-memory result cache, an association list
keyed by normalized requests. -/
def ResultCache := List (ResolutionRequest × CacheEntry)

/-- Cache lookup by key. -/
def cacheFind (key : ResolutionRequest) (c : ResultCache) : Option CacheEntry :=
  match c.find? (fun kv => kv.1 == key) with
  | some kv => some kv.2
  | none => none

/-- Cache eviction of a key. -/
def cacheEvict (key : ResolutionRequest) (c : ResultCache) : ResultCache :=
  c.filter (fun kv => kv.1 != key)

/-- Cache store (the new entry shadows any previous one for the key). -/
def cacheStore (key : ResolutionRequest) (e : CacheEntry) (c : ResultCache) : ResultCache :=
  (key, e) :: c

/-- Modelled from the spec: a fresh (uncached) resolution — run the
resolution engine, and on success capture the winning file's current
modification time and store the entry under the request's key (`stat` is
the platform's mtime capability; `none` models a stat failure).  The `Bool`
of the result records that the module loader / file reader layer was
invoked. -/
def freshResolve (P : Platform) (stat : FsPath → Option Nat)
    (req : ResolutionRequest) (c : ResultCache) :
    LoadConfigResult × ResultCache × Bool :=
  let run := loadConfigInternal P req.name req.extensions req.cwd req.maxDepth
    req.preferredPath req.packageJsonProperty
  match run.result.filepath with
  | some fp =>
    match stat fp with
    | some m =>
      (run.result, cacheStore (cacheKey req) ⟨run.result.config, fp, m⟩ c, true)
    | none => (run.result, c, true)
  | none => (run.result, c, true)

/-- Modelled from the spec: resolution through the Result Cache.  An entry
is valid iff its file can still be stat'ed and its current modification
time exactly equals the captured one; a valid entry is returned without
invoking the resolution engine (third component `false`); a stale or
missing entry is lazily evicted and a fresh resolution is performed. -/
def resolveWithCache (P : Platform) (stat : FsPath → Option Nat)
    (req : ResolutionRequest) (c : ResultCache) :
    LoadConfigResult × ResultCache × Bool :=
  let key := cacheKey req
  match cacheFind key c with
  | some e =>
    if stat e.filepath = some e.capturedMtime then
      (⟨e.config, some e.filepath⟩, c, false)
    else freshResolve P stat req (cacheEvict key c)
  | none => freshResolve P stat req c

/-! ## Lemmas about trimming -/

/-- `dropWhile` is idempotent. -/
theorem dropWhile_idem (p : Char → Bool) :
    ∀ l : List Char, (l.dropWhile p).dropWhile p = l.dropWhile p
  | [] => rfl
  | c :: l => by
    by_cases h : p c
    · simp only [List.dropWhile_cons, h, if_true]
      exact dropWhile_idem p l
    · simp [List.dropWhile_cons, h]

/-- A non-whitespace head survives a right trim. -/
theorem trimRightL_cons (c : Char) (l : List Char) (hc : wsChar c = false) :
    trimRightL (c :: l) = c :: trimRightL l := by
  unfold trimRightL
  rw [List.reverse_cons, List.dropWhile_append]
  by_cases h : (l.reverse.dropWhile wsChar).isEmpty
  · simp [h, List.dropWhile_cons, hc, List.isEmpty_iff.mp h]
  · simp [h]

/-- Left trim is idempotent. -/
theorem trimLeftL_idem (l : List Char) : trimLeftL (trimLeftL l) = trimLeftL l :=
  dropWhile_idem wsChar l

/-- Right trim is idempotent. -/
theorem trimRightL_idem (l : List Char) : trimRightL (trimRightL l) = trimRightL l := by
  unfold trimRightL
  rw [List.reverse_reverse, dropWhile_idem]

/-- A left-trimmed list is untouched by a further left trim even after a
right trim. -/
theorem trimLeftL_trimRightL (l : List Char) (h : trimLeftL l = l) :
    trimLeftL (trimRightL l) = trimRightL l := by
  cases l with
  | nil => rfl
  | cons c l =>
    have hc : wsChar c = false := by
      by_contra hw
      have hw' : wsChar c = true := by
        cases hcc : wsChar c
        · exact absurd hcc hw
        · rfl
      have h1 : trimLeftL (c :: l) = trimLeftL l := by
        simp [trimLeftL, List.dropWhile_cons, hw']
      have h2 : (trimLeftL l).length ≤ l.length := dropWhile_length_le wsChar l
      rw [h] at h1
      have : (c :: l).length ≤ l.length := h1 ▸ h2
      simp at this
    rw [trimRightL_cons c l hc]
    simp [trimLeftL, List.dropWhile_cons, hc]

/-- The JavaScript `trim` is idempotent. -/
theorem jsTrimL_idem (l : List Char) : jsTrimL (jsTrimL l) = jsTrimL l := by
  unfold jsTrimL
  rw [trimLeftL_trimRightL (trimLeftL l) (trimLeftL_idem l), trimRightL_idem]

/-! ## Claims about the Text Normalizer -/

/-- Claim C8 (code_bug evidence): the Text Normalizer does not leave
string-literal content unchanged.  On the JSON text `{"a": ",}"}` — whose
single data string is `",}"` — the trailing-comma regex, which is not aware
of string literals, deletes the comma inside the quoted string: the output
is `{"a": "}"}` and the literal's content has changed from `,}` to `}`.
The claim says precisely this comma-before-closer-inside-a-string survives
normalization; it does not. -/
theorem c8_cleanJson_corrupts_string_literal :
    cleanJson "\x7b\"a\": \",\x7d\"\x7d" = "\x7b\"a\": \"\x7d\"\x7d" ∧
    strLits "\x7b\"a\": \",\x7d\"\x7d" = ["a", ",\x7d"] ∧
    strLits (cleanJson "\x7b\"a\": \",\x7d\"\x7d") ≠ strLits "\x7b\"a\": \",\x7d\"\x7d" := by
  refine ⟨by decide, by decide, by decide⟩

/-- Claim C9 (counterexample): `cleanJson` is not idempotent.  On the input
`,,}` the first pass removes the second comma (`,}` remains) and a second
pass removes the comma that the first pass has newly placed before the
closing brace. -/
theorem c9_cleanJson_not_idempotent_counterexample :
    cleanJson (cleanJson ",,\x7d") ≠ cleanJson ",,\x7d" := by decide

/-- Claim C9 (amended): `cleanJson` is idempotent on every input whose
single-pass output is already stable under the comment-stripping and the
trailing-comma-removal steps — in particular on already-normalized text,
which is a fixed point.  (Universal idempotence fails: removing a trailing
comma can create a new comma-before-closer pattern, as in `,,}`.) -/
theorem c9_cleanJson_idempotent_amended (s : String)
    (h1 : stripGo (cleanJson s).data .top = (cleanJson s).data)
    (h2 : rtcGo (cleanJson s).data = (cleanJson s).data) :
    cleanJson (cleanJson s) = cleanJson s := by
  have hdata : (cleanJson s).data = cleanJsonL s.data := rfl
  show (⟨cleanJsonL (cleanJson s).data⟩ : String) = cleanJson s
  unfold cleanJsonL
  rw [h1, h2, hdata]
  show (⟨jsTrimL (jsTrimL (rtcGo (stripGo s.data .top)))⟩ : String) = cleanJson s
  rw [jsTrimL_idem]
  rfl

/-- Witness for the amended C9 at a concrete already-clean input. -/
theorem c9_cleanJson_idempotent_amended_witness :
    cleanJson (cleanJson "\x7b\"a\":1\x7d") = cleanJson "\x7b\"a\":1\x7d" :=
  c9_cleanJson_idempotent_amended "\x7b\"a\":1\x7d" (by decide) (by decide)

/-! ## Claims about the File Format Parser -/

/-- A platform holding a single executable-module config file whose default
export is a promise that rejects. -/
def rejectingPlatform : Platform where
  existsSyncFn := fun fp => if fp = ⟨["app"], "config.ts"⟩ then .ok true else .ok false
  readFileFn := fun _ => .error ⟨"no read"⟩
  jsonParseFn := fun _ => .error ⟨"no json"⟩
  importModuleFn := fun fp =>
    if fp = ⟨["app"], "config.ts"⟩ then .ok ⟨.vpromise (.error ⟨"boom"⟩), .vobj []⟩
    else .error ⟨"no module"⟩
  readdirFn := fun _ => .error ⟨"no readdir"⟩
  resolvePathFn := fun _ p => ⟨["app"], p⟩

/-- Claim C5 (code_bug evidence): `parseConfigFile` of `src/index.ts` does
propagate one failure to its caller.  With a config module whose loaded
value is a promise that rejects (reason `boom`), the `return config` inside
the `try` makes the async function's result adopt the promise after the
`try` has been exited, so the rejection is not caught and the promise
returned to the caller rejects, instead of settling to the "unusable"
`null`.  Every other failure mode (missing file, JSON syntax error, import
exception, exception from a callable export) is indeed converted to
`null`. -/
theorem c5_promise_rejection_escapes :
    parseConfigFileIndex rejectingPlatform ⟨["app"], "config.ts"⟩ = .error ⟨"boom"⟩ := rfl

/-- Claim C10: when an executable module's default export is present but
falsy, `module.default || module` selects the module's full export
namespace object, which is then subject to the call-if-callable and
await-if-promise unwrapping (`jsUnwrap`). -/
theorem c10_falsy_default_uses_namespace (P : Platform) (fp : FsPath) (m : JsModule)
    (hex : pExists P fp = true)
    (hjson : lowerString (extnameOf fp.base) ≠ ".json")
    (him : P.importModuleFn fp = .ok m)
    (hfalsy : jsTruthy m.defaultExport = false) :
    parseConfigFile P fp = jsUnwrap m.namespaceObject := by
  have hcfg : moduleConfig m = m.namespaceObject := by
    unfold moduleConfig
    rw [hfalsy]
    simp
  unfold parseConfigFile
  rw [hex]
  simp only [Bool.not_true, Bool.false_eq_true, if_false, if_neg hjson, him, hcfg]
  unfold jsUnwrap
  cases m.namespaceObject <;> try rfl
  case vfunc call => cases call <;> rfl

/-- Witness for C10: a module whose default export is the falsy `0` and
whose namespace object is a callable producing `{x: 1}`; the parser calls
it and returns the produced object. -/
def falsyDefaultPlatform : Platform where
  existsSyncFn := fun fp => if fp = ⟨["app"], "config.ts"⟩ then .ok true else .ok false
  readFileFn := fun _ => .error ⟨"no read"⟩
  jsonParseFn := fun _ => .error ⟨"no json"⟩
  importModuleFn := fun fp =>
    if fp = ⟨["app"], "config.ts"⟩ then
      .ok ⟨.vnum 0, .vfunc (.ok (.vobj [("x", .vnum 1)]))⟩
    else .error ⟨"no module"⟩
  readdirFn := fun _ => .error ⟨"no readdir"⟩
  resolvePathFn := fun _ p => ⟨["app"], p⟩

/-- Witness for C10 at a concrete platform: the namespace object (not the
falsy default export `0`) is selected and unwrapped. -/
theorem c10_falsy_default_uses_namespace_witness :
    parseConfigFile falsyDefaultPlatform ⟨["app"], "config.ts"⟩ = .vobj [("x", .vnum 1)] := by
  have h := c10_falsy_default_uses_namespace falsyDefaultPlatform ⟨["app"], "config.ts"⟩
    ⟨.vnum 0, .vfunc (.ok (.vobj [("x", .vnum 1)]))⟩ (by decide) (by decide) rfl (by decide)
  rw [h]
  rfl


def candB (P : Platform) (name : String) (dir : List String) (files : List String)
    (e : String) : Bool :=
  files.contains (name ++ e) && !isNull (parseConfigFile P ⟨dir, name ++ e⟩)

theorem tryExtensions_eq_none (P : Platform) (name : String) (dir : List String)
    (files : List String) :
    ∀ l : List String, (∀ e ∈ l, candB P name dir files e = false) →
      tryExtensions P name dir files l = none
  | [], _ => rfl
  | e :: rest, h => by
    have he := h e (List.mem_cons_self e rest)
    have hrest := tryExtensions_eq_none P name dir files rest
      (fun x hx => h x (List.mem_cons_of_mem _ hx))
    unfold candB at he
    unfold tryExtensions
    cases hc : files.contains (name ++ e) with
    | false => simp only [hc, Bool.false_eq_true, if_false]; exact hrest
    | true =>
      rw [hc] at he
      simp only [Bool.true_and, Bool.not_eq_false'] at he
      simp only [hc, he, if_true, if_pos]
      exact hrest

theorem isNull_eq_true_iff (c : JSValue) : isNull c = true ↔ c = .vnull := by
  cases c <;> simp [isNull]

theorem usableAtB_eq_candB (P : Platform) (name : String) (dir : List String)
    (e : String) (files : List String) (hfiles : P.readdirFn dir = .ok files) :
    usableAtB P name dir e = candB P name dir files e := by
  unfold usableAtB candB
  rw [hfiles]

theorem tryExtensions_append (P : Platform) (name : String) (dir : List String)
    (files : List String) (e : String) (post : List String)
    (he : candB P name dir files e = true) :
    ∀ pre : List String, (∀ x ∈ pre, candB P name dir files x = false) →
      tryExtensions P name dir files (pre ++ e :: post) =
        some (parseConfigFile P ⟨dir, name ++ e⟩, ⟨dir, name ++ e⟩)
  | [], _ => by
    unfold candB at he
    simp only [Bool.and_eq_true, Bool.not_eq_true'] at he
    simp only [List.nil_append]
    unfold tryExtensions
    simp only [he.1, he.2, if_true, Bool.false_eq_true, if_false]
  | x :: pre, h => by
    have hx := h x (List.mem_cons_self x pre)
    have hrest := tryExtensions_append P name dir files e post he pre
      (fun y hy => h y (List.mem_cons_of_mem _ hy))
    unfold candB at hx
    simp only [List.cons_append]
    unfold tryExtensions
    cases hc : files.contains (name ++ x) with
    | false => simp only [hc, Bool.false_eq_true, if_false]; exact hrest
    | true =>
      rw [hc] at hx
      simp only [Bool.true_and, Bool.not_eq_false'] at hx
      simp only [hc, hx, if_true]
      exact hrest

theorem tryExtensions_shape (P : Platform) (name : String) (dir : List String)
    (files : List String) :
    ∀ (l : List String) (c : JSValue) (fp : FsPath),
      tryExtensions P name dir files l = some (c, fp) → isNull c = false
  | [], c, fp, h => by simp [tryExtensions] at h
  | e :: rest, c, fp, h => by
    unfold tryExtensions at h
    cases hc : files.contains (name ++ e) with
    | false =>
      simp only [hc, Bool.false_eq_true, if_false] at h
      exact tryExtensions_shape P name dir files rest c fp h
    | true =>
      simp only [hc, if_true] at h
      cases hn : isNull (parseConfigFile P ⟨dir, name ++ e⟩) with
      | true =>
        simp only [hn, if_true] at h
        exact tryExtensions_shape P name dir files rest c fp h
      | false =>
        simp only [hn, Bool.false_eq_true, if_false] at h
        cases h
        exact hn

theorem levelHit_eq_none (P : Platform) (name : String) (exts : List String)
    (dir : List String) (h : ∀ e ∈ exts, usableAtB P name dir e = false) :
    levelHit P name exts dir = none := by
  unfold levelHit
  cases hr : P.readdirFn dir with
  | error err => rfl
  | ok files =>
    apply tryExtensions_eq_none
    intro e he
    have := h e he
    rwa [usableAtB_eq_candB P name dir e files hr] at this

theorem levelHit_shape (P : Platform) (name : String) (exts : List String)
    (dir : List String) (c : JSValue) (fp : FsPath)
    (h : levelHit P name exts dir = some (c, fp)) : isNull c = false := by
  unfold levelHit at h
  cases hr : P.readdirFn dir with
  | error err => rw [hr] at h; cases h
  | ok files =>
    rw [hr] at h
    exact tryExtensions_shape P name dir files exts c fp h

theorem dirnameDir_ne (d : List String) (hd : d ≠ []) : dirnameDir d ≠ d := by
  intro h
  have hlen := congrArg List.length h
  rw [dirnameDir, List.length_dropLast] at hlen
  have hpos : 0 < d.length := List.length_pos.mpr hd
  omega

theorem upDir_succ (j : Nat) (d : List String) :
    upDir (j + 1) d = upDir j (dirnameDir d) := rfl

theorem upDir_length : ∀ (j : Nat) (d : List String), (upDir j d).length = d.length - j
  | 0, _ => rfl
  | j + 1, d => by
    rw [upDir_succ, upDir_length j (dirnameDir d), dirnameDir, List.length_dropLast]
    omega

theorem tryExtensions_ne_none (P : Platform) (name : String) (dir : List String)
    (files : List String) :
    ∀ (l : List String) (e : String), e ∈ l → candB P name dir files e = true →
      tryExtensions P name dir files l ≠ none
  | [], e, he, _ => absurd he (List.not_mem_nil e)
  | x :: rest, e, he, hc => by
    unfold tryExtensions
    cases hcx : files.contains (name ++ x) with
    | true =>
      cases hnx : isNull (parseConfigFile P ⟨dir, name ++ x⟩) with
      | false =>
        simp only [hcx, hnx]
        simp
      | true =>
        simp only [hcx, hnx, if_true]
        rcases List.mem_cons.mp he with rfl | hm
        · unfold candB at hc
          rw [hcx, hnx] at hc
          simp at hc
        · exact tryExtensions_ne_none P name dir files rest e hm hc
    | false =>
      simp only [hcx, Bool.false_eq_true, if_false]
      rcases List.mem_cons.mp he with rfl | hm
      · unfold candB at hc
        rw [hcx] at hc
        simp at hc
      · exact tryExtensions_ne_none P name dir files rest e hm hc

/-- The one-step unfolding of the walk loop. -/
theorem walkLoopGo_succ_eq (P : Platform) (name : String) (exts : List String)
    (dir : List String) (fuel : Nat) :
    walkLoopGo P name exts dir (fuel + 1) =
      (match levelHit P name exts dir with
       | some (config, fp) => ⟨config, some fp⟩
       | none =>
         if dirnameDir dir = dir then notFoundResult
         else walkLoopGo P name exts (dirnameDir dir) fuel) := rfl

theorem walkLoopGo_skip (P : Platform) (name : String) (exts : List String) :
    ∀ (L : Nat) (cwd : List String) (fuel : Nat),
      L ≤ cwd.length → L ≤ fuel →
      (∀ j, j < L → ∀ e ∈ exts, usableAtB P name (upDir j cwd) e = false) →
      walkLoopGo P name exts cwd fuel = walkLoopGo P name exts (upDir L cwd) (fuel - L)
  | 0, cwd, fuel, _, _, _ => by simp [upDir]
  | L + 1, cwd, fuel, hlen, hfuel, hmiss => by
    obtain ⟨f, rfl⟩ : ∃ f, fuel = f + 1 := ⟨fuel - 1, by omega⟩
    have h0 : levelHit P name exts cwd = none :=
      levelHit_eq_none P name exts cwd (fun e he => hmiss 0 (Nat.succ_pos L) e he)
    have hcwd : cwd ≠ [] := by
      intro h
      rw [h] at hlen
      simp at hlen
    have hne : dirnameDir cwd ≠ cwd := dirnameDir_ne cwd hcwd
    have ih := walkLoopGo_skip P name exts L (dirnameDir cwd) f
      (by rw [dirnameDir, List.length_dropLast]; omega)
      (by omega)
      (fun j hj e he => hmiss (j + 1) (by omega) e he)
    rw [walkLoopGo_succ_eq, h0]
    simp only [hne, ite_false]
    have harith : f + 1 - (L + 1) = f - L := by omega
    rw [harith, upDir_succ]
    exact ih

theorem walkLoopGo_none (P : Platform) (name : String) (exts : List String) :
    ∀ (fuel : Nat) (cwd : List String),
      (∀ j, j < fuel → ∀ e ∈ exts, usableAtB P name (upDir j cwd) e = false) →
      walkLoopGo P name exts cwd fuel = notFoundResult
  | 0, _, _ => rfl
  | fuel + 1, cwd, h => by
    have h0 : levelHit P name exts cwd = none :=
      levelHit_eq_none P name exts cwd (fun e he => h 0 (Nat.succ_pos fuel) e he)
    have ih := walkLoopGo_none P name exts fuel (dirnameDir cwd)
      (fun j hj e he => h (j + 1) (by omega) e he)
    unfold walkLoopGo
    rw [h0]
    by_cases hd : dirnameDir cwd = cwd
    · simp [hd]
    · simp only [hd, if_neg, ite_false]
      exact ih

theorem walkLoopGo_succeeds (P : Platform) (name : String) (exts : List String) :
    ∀ (j : Nat) (cwd : List String) (fuel : Nat) (e : String),
      e ∈ exts → j ≤ cwd.length → j < fuel →
      usableAtB P name (upDir j cwd) e = true →
      (walkLoopGo P name exts cwd fuel).filepath ≠ none
  | j, cwd, fuel, e, he, hjlen, hjf, hus => by
    obtain ⟨f, rfl⟩ : ∃ f, fuel = f + 1 := ⟨fuel - 1, by omega⟩
    unfold walkLoopGo
    cases hl : levelHit P name exts cwd with
    | some r =>
      obtain ⟨c, fp⟩ := r
      simp
    | none =>
      cases j with
      | zero =>
        exfalso
        unfold levelHit at hl
        cases hr : P.readdirFn cwd with
        | error err =>
          unfold usableAtB at hus
          rw [show upDir 0 cwd = cwd from rfl, hr] at hus
          cases hus
        | ok files =>
          rw [hr] at hl
          rw [show upDir 0 cwd = cwd from rfl] at hus
          rw [usableAtB_eq_candB P name cwd e files hr] at hus
          exact tryExtensions_ne_none P name cwd files exts e he hus hl
      | succ j =>
        have hcwd : cwd ≠ [] := by
          intro h
          rw [h] at hjlen
          simp at hjlen
        have hne : dirnameDir cwd ≠ cwd := dirnameDir_ne cwd hcwd
        simp only [hne, if_neg, ite_false]
        exact walkLoopGo_succeeds P name exts j (dirnameDir cwd) f e he
          (by rw [dirnameDir, List.length_dropLast]; omega) (by omega)
          (by rw [← upDir_succ]; exact hus)

theorem walkLoopGo_shape (P : Platform) (name : String) (exts : List String) :
    ∀ (fuel : Nat) (cwd : List String),
      walkLoopGo P name exts cwd fuel = notFoundResult ∨
      ∃ c fp, walkLoopGo P name exts cwd fuel = ⟨c, some fp⟩ ∧ isNull c = false
  | 0, _ => Or.inl rfl
  | fuel + 1, cwd => by
    rw [walkLoopGo_succ_eq]
    cases hl : levelHit P name exts cwd with
    | some r =>
      obtain ⟨c, fp⟩ := r
      exact Or.inr ⟨c, fp, rfl, levelHit_shape P name exts cwd c fp hl⟩
    | none =>
      by_cases hd : dirnameDir cwd = cwd
      · rw [if_pos hd]
        exact Or.inl rfl
      · rw [if_neg hd]
        exact walkLoopGo_shape P name exts fuel (dirnameDir cwd)

/-- Inversion of a manifest-tier hit: the property was truthy, a manifest
was found, and the result is the property's value with the manifest path. -/
theorem manifestTier_inv (P : Platform) (cwd : List String) (maxDepth : Nat)
    (pjp : Option String) (r : LoadConfigResult)
    (h : manifestTier P cwd maxDepth pjp = some r) :
    ∃ s fp, pjp = some s ∧ s ≠ "" ∧ findPackageJson P cwd maxDepth = some fp ∧
      r = ⟨jsGetProp (parseConfigFile P fp) s, some fp⟩ := by
  cases pjp with
  | none => cases h
  | some s =>
    rw [show manifestTier P cwd maxDepth (some s) =
      (if s = "" then none
       else
        match findPackageJson P cwd maxDepth with
        | none => none
        | some pjPath =>
          let packageJson := parseConfigFile P pjPath
          if jsTruthy packageJson && jsTypeofObject packageJson && jsHasProp packageJson s then
            some ⟨jsGetProp packageJson s, some pjPath⟩
          else none) from rfl] at h
    by_cases hs : s = ""
    · rw [if_pos hs] at h
      cases h
    · rw [if_neg hs] at h
      cases hfind : findPackageJson P cwd maxDepth with
      | none => rw [hfind] at h; cases h
      | some fp =>
        rw [hfind] at h
        dsimp only at h
        by_cases hcond : (jsTruthy (parseConfigFile P fp) && jsTypeofObject (parseConfigFile P fp)
            && jsHasProp (parseConfigFile P fp) s) = true
        · rw [if_pos hcond] at h
          cases h
          exact ⟨s, fp, rfl, hs, rfl, rfl⟩
        · rw [if_neg hcond] at h
          cases h

/-- A hit of the preferred-path extension retry has a non-`null` config. -/
theorem tryPreferredExts_shape (P : Platform) (rp : FsPath) :
    ∀ (l : List String) (c : JSValue) (fp : FsPath),
      tryPreferredExts P rp l = some (c, fp) → isNull c = false
  | [], c, fp, h => by simp [tryPreferredExts] at h
  | e :: rest, c, fp, h => by
    unfold tryPreferredExts at h
    cases hn : isNull (parseConfigFile P ⟨rp.dir, rp.base ++ e⟩) with
    | true =>
      simp only [hn, if_true] at h
      exact tryPreferredExts_shape P rp rest c fp h
    | false =>
      simp only [hn, Bool.false_eq_true, if_false] at h
      cases h
      exact hn

/-- A hit of the preferred-path tier has a non-`null` config. -/
theorem preferredTier_shape (P : Platform) (cwd : List String) (exts : List String)
    (p : String) (c : JSValue) (fp : FsPath)
    (h : preferredTier P cwd exts p = some (c, fp)) : isNull c = false := by
  unfold preferredTier at h
  cases hn : isNull (parseConfigFile P (P.resolvePathFn cwd p)) with
  | false =>
    simp only [hn, Bool.not_false, if_true] at h
    cases h
    exact hn
  | true =>
    simp only [hn, Bool.not_true, Bool.false_eq_true, if_false] at h
    by_cases hx : extnameOf (P.resolvePathFn cwd p).base = ""
    · rw [if_pos hx] at h
      exact tryPreferredExts_shape P (P.resolvePathFn cwd p) exts c fp h
    · rw [if_neg hx] at h
      cases h

/-- Every member of a list has a first occurrence. -/
theorem exists_first_split (e : String) :
    ∀ l : List String, e ∈ l → ∃ pre post, l = pre ++ e :: post ∧ e ∉ pre
  | [], h => absurd h (List.not_mem_nil e)
  | x :: l, h => by
    by_cases hx : x = e
    · exact ⟨[], l, by rw [hx, List.nil_append], List.not_mem_nil e⟩
    · have hm : e ∈ l := by
        rcases List.mem_cons.mp h with rfl | hm
        · exact absurd rfl hx
        · exact hm
      obtain ⟨pre, post, hl, hp⟩ := exists_first_split e l hm
      refine ⟨x :: pre, post, by rw [hl, List.cons_append], ?_⟩
      intro hmem
      rcases List.mem_cons.mp hmem with rfl | hmem
      · exact hx rfl
      · exact hp hmem

/-- With no manifest property and no preferred path, resolution is exactly
the directory-walk tier. -/
theorem loadConfigInternal_no_options (P : Platform) (name : String)
    (exts : List String) (cwd : List String) (maxDepth : Nat) :
    loadConfigInternal P name exts cwd maxDepth none none =
      ⟨walkTier P name exts cwd maxDepth, []⟩ := rfl

/-- The level of the walk whose `(k, e)` candidate is the only usable one
produces exactly that candidate's hit. -/
theorem levelHit_of_only (P : Platform) (name : String) (exts : List String)
    (dir : List String) (e : String) (he : e ∈ exts)
    (husable : usableAtB P name dir e = true)
    (hothers : ∀ x ∈ exts, x ≠ e → usableAtB P name dir x = false) :
    levelHit P name exts dir =
      some (parseConfigFile P ⟨dir, name ++ e⟩, ⟨dir, name ++ e⟩) := by
  unfold levelHit
  cases hr : P.readdirFn dir with
  | error err =>
    unfold usableAtB at husable
    rw [hr] at husable
    cases husable
  | ok files =>
    have hcand : candB P name dir files e = true := by
      rwa [usableAtB_eq_candB P name dir e files hr] at husable
    obtain ⟨pre, post, hsplit, hnot⟩ := exists_first_split e exts he
    rw [hsplit]
    refine tryExtensions_append P name dir files e post hcand pre (fun x hx => ?_)
    have hxe : x ≠ e := fun hh => hnot (hh ▸ hx)
    have hxexts : x ∈ exts := by rw [hsplit]; exact List.mem_append_left _ hx
    have := hothers x hxexts hxe
    rwa [usableAtB_eq_candB P name dir x files hr] at this

/-- Claim C1 (amended): when the only usable directory-walk candidate is
exactly `k` directories above `startDirectory` and neither the manifest
property nor the preferred path applies, resolution succeeds with that
file's path if and only if `maxDepth ≥ k + 1` (the walk inspects the levels
`0 … maxDepth - 1`, so `maxDepth` must exceed `k`); otherwise the outcome
is not-found.  The original claim's bound `maxDepth ≥ k` is off by one. -/
theorem c1_upward_search_amended (P : Platform) (name : String) (exts : List String)
    (cwd : List String) (maxDepth k : Nat) (e : String)
    (hk : k ≤ cwd.length) (he : e ∈ exts)
    (husable : usableAtB P name (upDir k cwd) e = true)
    (honly : ∀ j, j ≤ cwd.length → ∀ x ∈ exts, ¬(j = k ∧ x = e) →
      usableAtB P name (upDir j cwd) x = false) :
    (loadConfigInternal P name exts cwd maxDepth none none).result =
      (if k < maxDepth then
        ⟨parseConfigFile P ⟨upDir k cwd, name ++ e⟩, some ⟨upDir k cwd, name ++ e⟩⟩
       else notFoundResult) := by
  have hres : (loadConfigInternal P name exts cwd maxDepth none none).result =
      walkLoopGo P name exts cwd maxDepth := rfl
  rw [hres]
  by_cases hlt : k < maxDepth
  · rw [if_pos hlt]
    have hskip := walkLoopGo_skip P name exts k cwd maxDepth hk (Nat.le_of_lt hlt)
      (fun j hj x hx => honly j (by omega) x hx (fun hc => by omega))
    rw [hskip]
    obtain ⟨f, hf⟩ : ∃ f, maxDepth - k = f + 1 := ⟨maxDepth - k - 1, by omega⟩
    rw [hf, walkLoopGo_succ_eq]
    have hlev := levelHit_of_only P name exts (upDir k cwd) e he husable
      (fun x hx hxe => honly k hk x hx (fun hc => hxe hc.2))
    rw [hlev]
  · rw [if_neg hlt]
    exact walkLoopGo_none P name exts maxDepth cwd
      (fun j hj x hx => honly j (by omega) x hx (fun hc => by omega))

/-- A filesystem with a single usable config file `app.ts` in `/a`, used
against requests starting at `/a/b`. -/
def c1Platform : Platform where
  existsSyncFn := fun fp => if fp = ⟨["a"], "app.ts"⟩ then .ok true else .ok false
  readFileFn := fun _ => .error ⟨"no read"⟩
  jsonParseFn := fun _ => .error ⟨"no json"⟩
  importModuleFn := fun fp =>
    if fp = ⟨["a"], "app.ts"⟩ then .ok ⟨.vobj [("name", .vstr "x")], .vobj []⟩
    else .error ⟨"no module"⟩
  readdirFn := fun d => if d = ["a"] then .ok ["app.ts"] else .ok []
  resolvePathFn := fun _ p => ⟨[], p⟩

/-- Claim C1 (counterexample): the only usable candidate `/a/app.ts` lies
exactly `k = 1` directory above the start directory `/a/b` and
`maxDepth = 1 ≥ k`, so the claim predicts success — but the walk only
inspects level `0` when `maxDepth = 1` (`while (currentDepth < maxDepth)`),
and the outcome is not-found. -/
theorem c1_upward_search_counterexample :
    usableAtB c1Platform "app" (upDir 1 ["a", "b"]) ".ts" = true ∧
    (∀ j, j ≤ 2 → ∀ x ∈ [".ts"], ¬(j = 1 ∧ x = ".ts") →
      usableAtB c1Platform "app" (upDir j ["a", "b"]) x = false) ∧
    1 ≤ 1 ∧
    (loadConfigInternal c1Platform "app" [".ts"] ["a", "b"] 1 none none).result =
      notFoundResult := by
  refine ⟨by decide, by decide, by decide, rfl⟩

/-- Witness for the amended C1: the same filesystem with `maxDepth = 2`
(that is, `maxDepth ≥ k + 1`) does resolve to `/a/app.ts`. -/
theorem c1_upward_search_amended_witness :
    (loadConfigInternal c1Platform "app" [".ts"] ["a", "b"] 2 none none).result =
      ⟨.vobj [("name", .vstr "x")], some ⟨["a"], "app.ts"⟩⟩ := by
  have h := c1_upward_search_amended c1Platform "app" [".ts"] ["a", "b"] 2 1 ".ts"
    (by decide) (by decide) (by decide) (by decide)
  rw [h]
  rfl

/-- Claim C3: within the directory-walk tier (no manifest property, no
preferred path), when `L` is the first level with any usable candidate and
at least two extensions have usable candidate files there (`e2 ≠ e` records
the second one), the returned `filepath` carries the usable extension
appearing earliest in the request's extension list (`e`, every extension
before which fails at `L`) — every extension is tried at a level before the
walk advances, so extension priority dominates directory depth. -/
theorem c3_extension_priority (P : Platform) (name : String)
    (exts pre post : List String) (cwd : List String) (maxDepth L : Nat)
    (e e2 : String)
    (hsplit : exts = pre ++ e :: post)
    (hL : L ≤ cwd.length) (hfuel : L < maxDepth)
    (hmiss : ∀ j, j < L → ∀ x ∈ exts, usableAtB P name (upDir j cwd) x = false)
    (hpre : ∀ x ∈ pre, usableAtB P name (upDir L cwd) x = false)
    (he : usableAtB P name (upDir L cwd) e = true)
    (he2 : e2 ∈ exts) (hne2 : e2 ≠ e)
    (hus2 : usableAtB P name (upDir L cwd) e2 = true) :
    (loadConfigInternal P name exts cwd maxDepth none none).result =
      ⟨parseConfigFile P ⟨upDir L cwd, name ++ e⟩, some ⟨upDir L cwd, name ++ e⟩⟩ := by
  have hres : (loadConfigInternal P name exts cwd maxDepth none none).result =
      walkLoopGo P name exts cwd maxDepth := rfl
  rw [hres]
  have hskip := walkLoopGo_skip P name exts L cwd maxDepth hL (Nat.le_of_lt hfuel) hmiss
  rw [hskip]
  obtain ⟨f, hf⟩ : ∃ f, maxDepth - L = f + 1 := ⟨maxDepth - L - 1, by omega⟩
  rw [hf, walkLoopGo_succ_eq]
  have hlev : levelHit P name exts (upDir L cwd) =
      some (parseConfigFile P ⟨upDir L cwd, name ++ e⟩, ⟨upDir L cwd, name ++ e⟩) := by
    unfold levelHit
    cases hr : P.readdirFn (upDir L cwd) with
    | error err =>
      unfold usableAtB at he
      rw [hr] at he
      cases he
    | ok files =>
      have hcand : candB P name (upDir L cwd) files e = true := by
        rwa [usableAtB_eq_candB P name (upDir L cwd) e files hr] at he
      rw [hsplit]
      refine tryExtensions_append P name (upDir L cwd) files e post hcand pre
        (fun x hx => ?_)
      have := hpre x hx
      rwa [usableAtB_eq_candB P name (upDir L cwd) x files hr] at this
  rw [hlev]

/-- A directory `/p` holding two usable candidates `app.ts` and `app.json`
for the same logical name. -/
def c3Platform : Platform where
  existsSyncFn := fun fp =>
    if fp = ⟨["p"], "app.ts"⟩ then .ok true
    else if fp = ⟨["p"], "app.json"⟩ then .ok true
    else .ok false
  readFileFn := fun fp =>
    if fp = ⟨["p"], "app.json"⟩ then .ok "jsontext" else .error ⟨"no read"⟩
  jsonParseFn := fun s =>
    if s = "jsontext" then .ok (.vobj [("name", .vstr "json")]) else .error ⟨"bad json"⟩
  importModuleFn := fun fp =>
    if fp = ⟨["p"], "app.ts"⟩ then .ok ⟨.vobj [("name", .vstr "ts")], .vobj []⟩
    else .error ⟨"no module"⟩
  readdirFn := fun d => if d = ["p"] then .ok ["app.ts", "app.json"] else .ok []
  resolvePathFn := fun _ p => ⟨[], p⟩

/-- Witness for C3: with `extensions = [".ts", ".json"]` and both files
usable in the same directory, the `.ts` file wins. -/
theorem c3_extension_priority_witness :
    (loadConfigInternal c3Platform "app" [".ts", ".json"] ["p"] 1 none none).result =
      ⟨.vobj [("name", .vstr "ts")], some ⟨["p"], "app.ts"⟩⟩ := by
  have h := c3_extension_priority c3Platform "app" [".ts", ".json"] [] [".json"]
    ["p"] 1 0 ".ts" ".json" rfl (by decide) (by decide)
    (by intro j hj x hx; omega) (by intro x hx; cases hx)
    (by decide) (by decide) (by decide) (by decide)
  rw [h]
  rfl

/-- Claim C2: when `packageJsonProperty` is set (truthy) and the nearest
manifest found by the bounded upward walk parses to a truthy object that
contains the property as a key — even when the property's value is falsy,
since the test is the `in` operator — resolution returns that property's
value as `config` and the manifest's path as `filepath`, regardless of the
preferred path and of any directly-named candidate files in the
filesystem (the theorem holds for every `preferredPath` and every
platform). -/
theorem c2_manifest_precedence (P : Platform) (name : String) (exts : List String)
    (cwd : List String) (maxDepth : Nat) (preferredPath : Option String)
    (s : String) (fp : FsPath)
    (hs : s ≠ "")
    (hfind : findPackageJson P cwd maxDepth = some fp)
    (htruthy : jsTruthy (parseConfigFile P fp) = true)
    (hobj : jsTypeofObject (parseConfigFile P fp) = true)
    (hhas : jsHasProp (parseConfigFile P fp) s = true) :
    loadConfigInternal P name exts cwd maxDepth preferredPath (some s) =
      ⟨⟨jsGetProp (parseConfigFile P fp) s, some fp⟩, []⟩ := by
  have hman : manifestTier P cwd maxDepth (some s) =
      some ⟨jsGetProp (parseConfigFile P fp) s, some fp⟩ := by
    rw [show manifestTier P cwd maxDepth (some s) =
      (if s = "" then none
       else
        match findPackageJson P cwd maxDepth with
        | none => none
        | some pjPath =>
          let packageJson := parseConfigFile P pjPath
          if jsTruthy packageJson && jsTypeofObject packageJson && jsHasProp packageJson s then
            some ⟨jsGetProp packageJson s, some pjPath⟩
          else none) from rfl]
    rw [if_neg hs, hfind]
    dsimp only
    rw [htruthy, hobj, hhas]
    rfl
  unfold loadConfigInternal
  rw [hman]

/-- A filesystem where `/w/package.json` declares the property `toolcfg`
with the falsy value `0` while a usable `/w/app.ts` also exists. -/
def c2Platform : Platform where
  existsSyncFn := fun fp =>
    if fp = ⟨["w"], "package.json"⟩ then .ok true
    else if fp = ⟨["w"], "app.ts"⟩ then .ok true
    else .ok false
  readFileFn := fun fp =>
    if fp = ⟨["w"], "package.json"⟩ then .ok "pkgtext" else .error ⟨"no read"⟩
  jsonParseFn := fun s =>
    if s = "pkgtext" then .ok (.vobj [("toolcfg", .vnum 0), ("other", .vnum 1)])
    else .error ⟨"bad json"⟩
  importModuleFn := fun fp =>
    if fp = ⟨["w"], "app.ts"⟩ then .ok ⟨.vobj [("name", .vstr "direct")], .vobj []⟩
    else .error ⟨"no module"⟩
  readdirFn := fun d => if d = ["w"] then .ok ["app.ts", "package.json"] else .ok []
  resolvePathFn := fun _ p => ⟨["w"], p⟩

/-- Witness for C2: the falsy manifest value `0` wins over the usable
directly-named candidate `/w/app.ts`. -/
theorem c2_manifest_precedence_witness :
    loadConfigInternal c2Platform "app" [".ts"] ["w"] 1 none (some "toolcfg") =
      ⟨⟨.vnum 0, some ⟨["w"], "package.json"⟩⟩, []⟩ := by
  have h := c2_manifest_precedence c2Platform "app" [".ts"] ["w"] 1 none "toolcfg"
    ⟨["w"], "package.json"⟩ (by decide) rfl (by decide) (by decide) (by decide)
  rw [h]
  rfl

/-- The directory-walk tier satisfies both-or-neither on its own: it either
misses entirely or returns a non-`null` config with a path. -/
theorem walkTier_both_or_neither (P : Platform) (name : String) (exts : List String)
    (cwd : List String) (maxDepth : Nat) :
    ((walkTier P name exts cwd maxDepth).filepath = none →
      (walkTier P name exts cwd maxDepth).config = .vnull) ∧
    ((walkTier P name exts cwd maxDepth).config = .vnull →
      (walkTier P name exts cwd maxDepth).filepath = none) := by
  rcases walkLoopGo_shape P name exts maxDepth cwd with h | ⟨c, fp, h, hn⟩
  · unfold walkTier
    rw [h]
    exact ⟨fun _ => rfl, fun _ => rfl⟩
  · unfold walkTier
    rw [h]
    constructor
    · intro hfp
      cases hfp
    · intro hnull
      exfalso
      have hc : c = .vnull := hnull
      rw [hc] at hn
      simp [isNull] at hn

/-- A filesystem whose `/d/package.json` declares the property `cfg` with
the JSON value `null`. -/
def c4Platform : Platform where
  existsSyncFn := fun fp => if fp = ⟨["d"], "package.json"⟩ then .ok true else .ok false
  readFileFn := fun fp =>
    if fp = ⟨["d"], "package.json"⟩ then .ok "pkgtext" else .error ⟨"no read"⟩
  jsonParseFn := fun s =>
    if s = "pkgtext" then .ok (.vobj [("cfg", .vnull)]) else .error ⟨"bad json"⟩
  importModuleFn := fun _ => .error ⟨"no module"⟩
  readdirFn := fun _ => .ok []
  resolvePathFn := fun _ p => ⟨["d"], p⟩

/-- Claim C4 (counterexample): a manifest-property hit whose extracted value
is the JSON `null` returns `config = null` together with a non-null
`filepath` (the manifest's path), violating the both-or-neither invariant
exactly on the return path the claim singles out. -/
theorem c4_both_or_neither_counterexample :
    isNull (loadConfigInternal c4Platform "app" [".ts"] ["d"] 1 none
      (some "cfg")).result.config = true ∧
    (loadConfigInternal c4Platform "app" [".ts"] ["d"] 1 none
      (some "cfg")).result.filepath = some ⟨["d"], "package.json"⟩ := by
  exact ⟨rfl, rfl⟩

/-- Claim C4 (amended): `config` and `filepath` are both absent or both
present on every return path except one: a manifest-property hit whose
extracted value is `null`, which returns `config = null` with the manifest's
path as `filepath`.  Equivalently: a `null` filepath always comes with a
`null` config, and a `null` config comes with a `null` filepath unless it
was extracted from the manifest property. -/
theorem c4_both_or_neither_amended (P : Platform) (name : String) (exts : List String)
    (cwd : List String) (maxDepth : Nat) (pp pjp : Option String) :
    ((loadConfigInternal P name exts cwd maxDepth pp pjp).result.filepath = none →
      (loadConfigInternal P name exts cwd maxDepth pp pjp).result.config = .vnull) ∧
    ((loadConfigInternal P name exts cwd maxDepth pp pjp).result.config = .vnull →
      (loadConfigInternal P name exts cwd maxDepth pp pjp).result.filepath = none ∨
      ∃ s fp, pjp = some s ∧ s ≠ "" ∧ findPackageJson P cwd maxDepth = some fp ∧
        (loadConfigInternal P name exts cwd maxDepth pp pjp).result.filepath = some fp ∧
        jsGetProp (parseConfigFile P fp) s = .vnull) := by
  unfold loadConfigInternal
  cases hm : manifestTier P cwd maxDepth pjp with
  | some r =>
    obtain ⟨s, fp, hpjp, hs, hfind, hr⟩ := manifestTier_inv P cwd maxDepth pjp r hm
    subst hr
    dsimp only
    constructor
    · intro hfp
      cases hfp
    · intro hnull
      exact Or.inr ⟨s, fp, hpjp, hs, hfind, rfl, hnull⟩
  | none =>
    dsimp only
    cases pp with
    | none =>
      dsimp only
      have h := walkTier_both_or_neither P name exts cwd maxDepth
      exact ⟨h.1, fun hc => Or.inl (h.2 hc)⟩
    | some p =>
      dsimp only
      by_cases hp : p = ""
      · rw [if_pos hp]
        dsimp only
        have h := walkTier_both_or_neither P name exts cwd maxDepth
        exact ⟨h.1, fun hc => Or.inl (h.2 hc)⟩
      · rw [if_neg hp]
        cases hpt : preferredTier P cwd exts p with
        | some pr =>
          obtain ⟨c, fp2⟩ := pr
          dsimp only
          have hshape := preferredTier_shape P cwd exts p c fp2 hpt
          constructor
          · intro hfp
            cases hfp
          · intro hnull
            exfalso
            have hc : c = .vnull := hnull
            rw [hc] at hshape
            simp [isNull] at hshape
        | none =>
          dsimp only
          have h := walkTier_both_or_neither P name exts cwd maxDepth
          exact ⟨h.1, fun hc => Or.inl (h.2 hc)⟩

/-- A filesystem with nothing in it at all. -/
def emptyPlatform : Platform where
  existsSyncFn := fun _ => .ok false
  readFileFn := fun _ => .error ⟨"no read"⟩
  jsonParseFn := fun _ => .error ⟨"bad json"⟩
  importModuleFn := fun _ => .error ⟨"no module"⟩
  readdirFn := fun _ => .ok []
  resolvePathFn := fun _ p => ⟨[], p⟩

/-- Witness for the amended C4: on an empty filesystem the not-found
outcome has a `null` filepath, and the amended invariant then forces a
`null` config. -/
theorem c4_both_or_neither_amended_witness :
    (loadConfigInternal emptyPlatform "app" [".ts"] ["d"] 1 none none).result.config =
      .vnull :=
  (c4_both_or_neither_amended emptyPlatform "app" [".ts"] ["d"] 1 none none).1 rfl

/-- Claim C6: when the manifest tier does not apply and the preferred path
is set but missing or unusable (its whole tier fails, extension retries
included), resolution does not fail outright: exactly the preferred-path
warning is emitted and the engine falls through to the directory-walk tier,
so the request still succeeds whenever a usable directory-walk candidate
exists within the depth bound. -/
theorem c6_preferred_fallback (P : Platform) (name : String) (exts : List String)
    (cwd : List String) (maxDepth : Nat) (pjp : Option String) (p : String)
    (j : Nat) (e : String)
    (hp : p ≠ "")
    (hmanifest : manifestTier P cwd maxDepth pjp = none)
    (hpref : preferredTier P cwd exts p = none)
    (he : e ∈ exts) (hj : j ≤ cwd.length) (hjd : j < maxDepth)
    (husable : usableAtB P name (upDir j cwd) e = true) :
    (loadConfigInternal P name exts cwd maxDepth (some p) pjp).warns =
      [LogEvent.warnPreferred p] ∧
    (loadConfigInternal P name exts cwd maxDepth (some p) pjp).result =
      walkTier P name exts cwd maxDepth ∧
    (loadConfigInternal P name exts cwd maxDepth (some p) pjp).result.filepath ≠ none := by
  have hout : loadConfigInternal P name exts cwd maxDepth (some p) pjp =
      ⟨walkTier P name exts cwd maxDepth, [LogEvent.warnPreferred p]⟩ := by
    unfold loadConfigInternal
    rw [hmanifest]
    dsimp only
    rw [if_neg hp, hpref]
  rw [hout]
  exact ⟨rfl, rfl, walkLoopGo_succeeds P name exts j cwd maxDepth e he hj hjd husable⟩

/-- A filesystem with a usable `/q/app.ts` but nothing at the preferred
path `/q/missing.json`. -/
def c6Platform : Platform where
  existsSyncFn := fun fp => if fp = ⟨["q"], "app.ts"⟩ then .ok true else .ok false
  readFileFn := fun _ => .error ⟨"no read"⟩
  jsonParseFn := fun _ => .error ⟨"bad json"⟩
  importModuleFn := fun fp =>
    if fp = ⟨["q"], "app.ts"⟩ then .ok ⟨.vobj [("name", .vstr "walk")], .vobj []⟩
    else .error ⟨"no module"⟩
  readdirFn := fun d => if d = ["q"] then .ok ["app.ts"] else .ok []
  resolvePathFn := fun _ p => ⟨["q"], p⟩

/-- Witness for C6: the invalid preferred path `missing.json` produces the
warning and the request still resolves to the walk candidate `/q/app.ts`. -/
theorem c6_preferred_fallback_witness :
    (loadConfigInternal c6Platform "app" [".ts"] ["q"] 1 (some "missing.json") none).warns =
      [LogEvent.warnPreferred "missing.json"] ∧
    (loadConfigInternal c6Platform "app" [".ts"] ["q"] 1
      (some "missing.json") none).result.filepath ≠ none := by
  have h := c6_preferred_fallback c6Platform "app" [".ts"] ["q"] 1 none "missing.json"
    0 ".ts" (by decide) rfl rfl (by decide) (by decide) (by decide) (by decide)
  exact ⟨h.1, h.2.2⟩

/-- Lookup finds a freshly stored entry. -/
theorem cacheFind_cacheStore (key : ResolutionRequest) (e : CacheEntry) (c : ResultCache) :
    cacheFind key (cacheStore key e c) = some e := by
  unfold cacheFind cacheStore
  simp [List.find?]

/-- A fresh resolution always reports that the resolution engine ran. -/
theorem freshResolve_ran (P : Platform) (stat : FsPath → Option Nat)
    (req : ResolutionRequest) (c : ResultCache) :
    (freshResolve P stat req c).2.2 = true := by
  unfold freshResolve
  dsimp only
  split
  · split <;> rfl
  · rfl

/-- A fresh resolution returns the engine's result. -/
theorem freshResolve_fst (P : Platform) (stat : FsPath → Option Nat)
    (req : ResolutionRequest) (c : ResultCache) :
    (freshResolve P stat req c).1 =
      (loadConfigInternal P req.name req.extensions req.cwd req.maxDepth
        req.preferredPath req.packageJsonProperty).result := by
  unfold freshResolve
  dsimp only
  split
  · split <;> rfl
  · rfl

/-- After a successful fresh resolution whose winning file could be
stat'ed, the cache holds the captured entry under the request's key. -/
theorem freshResolve_entry (P : Platform) (stat : FsPath → Option Nat)
    (req : ResolutionRequest) (c : ResultCache) (r : LoadConfigResult)
    (c' : ResultCache) (b : Bool) (fp : FsPath) (m : Nat)
    (h : freshResolve P stat req c = (r, c', b))
    (hfp : r.filepath = some fp) (hm : stat fp = some m) :
    cacheFind (cacheKey req) c' = some ⟨r.config, fp, m⟩ := by
  unfold freshResolve at h
  dsimp only at h
  split at h
  · rename_i fp2 heq
    split at h
    · rename_i m2 hst
      injection h with ha hbc
      injection hbc with hb hc
      subst ha
      subst hb
      rw [heq] at hfp
      injection hfp with hfp2
      subst hfp2
      rw [hst] at hm
      injection hm with hm2
      subst hm2
      exact cacheFind_cacheStore (cacheKey req) _ c
    · rename_i hst
      injection h with ha hbc
      subst ha
      rw [heq] at hfp
      injection hfp with hfp2
      subst hfp2
      rw [hst] at hm
      cases hm
  · rename_i heq
    injection h with ha hbc
    subst ha
    rw [heq] at hfp
    cases hfp

/-- Claim C7 (spec-modelled): after a resolution through the cache layer
succeeds (the winning file `fp` had modification time `m` at capture time),
a second identical request returns the same `config`/`filepath` pair with
the cache untouched and without re-running the resolution engine (the
module loader / file reader layer); and for any later mtime view under
which `fp`'s modification time is no longer `m`, the entry is invalidated:
the call runs a fresh resolution whose result is the engine's. -/
theorem c7_cache_coherence (P : Platform) (stat : FsPath → Option Nat)
    (req : ResolutionRequest) (c0 : ResultCache) (r : LoadConfigResult)
    (c1 : ResultCache) (b : Bool) (fp : FsPath) (m : Nat)
    (h1 : resolveWithCache P stat req c0 = (r, c1, b))
    (hfp : r.filepath = some fp)
    (hm : stat fp = some m) :
    resolveWithCache P stat req c1 = (r, c1, false) ∧
    (∀ stat2 : FsPath → Option Nat, stat2 fp ≠ some m →
      (resolveWithCache P stat2 req c1).2.2 = true ∧
      (resolveWithCache P stat2 req c1).1 =
        (loadConfigInternal P req.name req.extensions req.cwd req.maxDepth
          req.preferredPath req.packageJsonProperty).result) := by
  have hentry : cacheFind (cacheKey req) c1 = some ⟨r.config, fp, m⟩ := by
    unfold resolveWithCache at h1
    dsimp only at h1
    cases hf : cacheFind (cacheKey req) c0 with
    | some e =>
      rw [hf] at h1
      dsimp only at h1
      by_cases hv : stat e.filepath = some e.capturedMtime
      · rw [if_pos hv] at h1
        injection h1 with ha hbc
        injection hbc with hb hc
        subst ha
        subst hb
        rw [show ({ config := e.config, filepath := some e.filepath } :
            LoadConfigResult).filepath = some e.filepath from rfl] at hfp
        injection hfp with hfp2
        subst hfp2
        rw [hv] at hm
        injection hm with hm2
        subst hm2
        rw [hf]
      · rw [if_neg hv] at h1
        exact freshResolve_entry P stat req (cacheEvict (cacheKey req) c0) r c1 b fp m
          h1 hfp hm
    | none =>
      rw [hf] at h1
      exact freshResolve_entry P stat req c0 r c1 b fp m h1 hfp hm
  have hreta : r = ⟨r.config, some fp⟩ := by
    cases r with
    | mk cfg fpath =>
      simp only at hfp ⊢
      rw [hfp]
  constructor
  · unfold resolveWithCache
    dsimp only
    rw [hentry]
    dsimp only
    rw [if_pos hm]
    rw [← hreta]
  · intro stat2 hstat2
    unfold resolveWithCache
    dsimp only
    rw [hentry]
    dsimp only
    rw [if_neg hstat2]
    exact ⟨freshResolve_ran P stat2 req (cacheEvict (cacheKey req) c1),
      freshResolve_fst P stat2 req (cacheEvict (cacheKey req) c1)⟩

/-- An mtime view under which `/a/app.ts` has modification time `5`. -/
def c7Stat : FsPath → Option Nat :=
  fun fp => if fp = ⟨["a"], "app.ts"⟩ then some 5 else none

/-- The request of the C7 witness. -/
def c7Req : ResolutionRequest := ⟨"app", [".ts"], ["a", "b"], 2, none, none⟩

/-- Witness for C7 at a concrete world: after the first (fresh, cached)
resolution, the identical second request is served from the cache — same
pair, cache unchanged, engine not re-run. -/
theorem c7_cache_coherence_witness :
    resolveWithCache c1Platform c7Stat c7Req
        [(cacheKey c7Req, ⟨.vobj [("name", .vstr "x")], ⟨["a"], "app.ts"⟩, 5⟩)] =
      (⟨.vobj [("name", .vstr "x")], some ⟨["a"], "app.ts"⟩⟩,
        [(cacheKey c7Req, ⟨.vobj [("name", .vstr "x")], ⟨["a"], "app.ts"⟩, 5⟩)], false) :=
  (c7_cache_coherence c1Platform c7Stat c7Req [] _ _ _ ⟨["a"], "app.ts"⟩ 5 rfl rfl rfl).1
